import Mathlib

/-!
Shallow embedding of the oracle-service core (chunking, indexing, two-stage
search, context assembly) from `oracle-service/services/chunking.py`,
`oracle-service/services/indexing.py`, `oracle-service/services/search.py`
and `oracle-service/models/reranker.py`. Documents are modelled as `List Char`,
scores and distances as `ℤ`, metadata as an abstract type parameter. External
collaborators (the embedding model, the cross-encoder, the vector store) are
modelled as inputs handed to the functions that consume them.
-/

namespace Oracle

/-- Python `\s` whitespace class restricted to ASCII, as used by `re.sub`,
`re.split` and `str.strip` in `chunking.py`. -/
def isPyWs (c : Char) : Bool :=
  c = ' ' ∨ c = Char.ofNat 9 ∨ c = Char.ofNat 10 ∨ c = Char.ofNat 13 ∨
    c = Char.ofNat 11 ∨ c = Char.ofNat 12

/-- The control-character class `[\x00-\x08\x0B-\x0C\x0E-\x1F\x7F]` removed by
`_clean_text` (chunking.py line 132). -/
def isCtrl (c : Char) : Bool :=
  c.toNat ≤ 8 ∨ (11 ≤ c.toNat ∧ c.toNat ≤ 12) ∨
    (14 ≤ c.toNat ∧ c.toNat ≤ 31) ∨ c.toNat = 127

/-- Python `str.strip()` with no argument: drop whitespace from both ends. -/
def pyStrip (l : List Char) : List Char :=
  ((l.dropWhile isPyWs).reverse.dropWhile isPyWs).reverse

/-- State machine for `re.sub(r'\s+', ' ', text)`: the flag records whether the
previous character was whitespace (i.e. we are inside a run already rewritten
to a single space). -/
def collapseWsAux (prevWs : Bool) : List Char → List Char
  | [] => []
  | c :: cs =>
    if isPyWs c then
      if prevWs then collapseWsAux true cs else ' ' :: collapseWsAux true cs
    else c :: collapseWsAux false cs

/-- `re.sub(r'\s+', ' ', text)` (chunking.py line 129). -/
def collapseWs (l : List Char) : List Char := collapseWsAux false l

/-- `_clean_text` (chunking.py lines 126-134): collapse whitespace runs, strip
control characters, trim. -/
def cleanText (l : List Char) : List Char :=
  pyStrip ((collapseWs l).filter (fun c => !(isCtrl c)))

/-- Newline character. -/
def nlChar : Char := Char.ofNat 10

/-- State machine for `re.split(r'\n\n+', text)`: `cur` is the current piece in
reverse, `nl` counts the newlines seen immediately before the scan position. -/
def splitParasAux : List Char → Nat → List Char → List (List Char)
  | cur, nl, [] =>
    if 2 ≤ nl then [cur.reverse, []]
    else if nl = 1 then [cur.reverse ++ [nlChar]]
    else [cur.reverse]
  | cur, nl, c :: rest =>
    if c = nlChar then splitParasAux cur (nl + 1) rest
    else if 2 ≤ nl then cur.reverse :: splitParasAux [c] 0 rest
    else if nl = 1 then splitParasAux (c :: nlChar :: cur) 0 rest
    else splitParasAux (c :: cur) 0 rest

/-- `re.split(r'\n\n+', text)` (chunking.py line 147). -/
def splitParagraphs (l : List Char) : List (List Char) := splitParasAux [] 0 l

/-- Python slice `s[-n:]` for `n ≠ 0` keeps the last `n` characters (all of `s`
when `n ≥ len(s)`); `s[-0:]` is `s[0:] = s`. -/
def pySliceLast (n : Nat) (l : List Char) : List Char :=
  if n = 0 then l else l.drop (l.length - n)

/-- Loop body of `_semantic_chunk` (chunking.py lines 149-170): greedy
accumulation of stripped paragraphs with a trailing character-window overlap.
`chunks` is the emitted list, `cur` the running buffer. -/
def semAux (cs ov : Nat) (chunks : List (List Char)) (cur : List Char) :
    List (List Char) → List (List Char)
  | [] => if cur = [] then chunks else chunks ++ [pyStrip cur]
  | p :: ps =>
    let para := pyStrip p
    if para = [] then semAux cs ov chunks cur ps
    else if cur ≠ [] ∧ cs < cur.length + para.length then
      semAux cs ov (chunks ++ [pyStrip cur])
        (pySliceLast ov cur ++ [' '] ++ para) ps
    else if cur = [] then semAux cs ov chunks para ps
    else semAux cs ov chunks (cur ++ [nlChar, nlChar] ++ para) ps

/-- `_semantic_chunk` (chunking.py lines 136-172). -/
def semanticChunk (cs ov : Nat) (text : List Char) : List (List Char) :=
  semAux cs ov [] [] (splitParagraphs text)

/-- State machine for `re.split(r'(?<=[.!?])\s+', text)`: a whitespace run is a
separator exactly when the character right before it is `.`, `!` or `?`.
`cur` is the current piece in reverse, `prevDelim` whether the previous
character was a sentence delimiter, `inSep` whether we are inside a separator
run being discarded. -/
def splitSentAux : List Char → Bool → Bool → List Char → List (List Char)
  | cur, _, _, [] => [cur.reverse]
  | cur, prevDelim, inSep, c :: rest =>
    if isPyWs c then
      if inSep then splitSentAux cur false true rest
      else if prevDelim then cur.reverse :: splitSentAux [] false true rest
      else splitSentAux (c :: cur) false false rest
    else splitSentAux (c :: cur) (c = '.' ∨ c = '!' ∨ c = '?') false rest

/-- `re.split(r'(?<=[.!?])\s+', text)` (chunking.py line 185). -/
def splitSentences (l : List Char) : List (List Char) :=
  splitSentAux [] false false l

/-- Python `str.split('. ')`: split on non-overlapping literal occurrences of
`". "`, scanning left to right. -/
def splitDotSpace (cur : List Char) : List Char → List (List Char)
  | [] => [cur.reverse]
  | [c] => [(c :: cur).reverse]
  | c :: c2 :: rest =>
    if c = '.' ∧ c2 = ' ' then cur.reverse :: splitDotSpace [] rest
    else splitDotSpace (c :: cur) (c2 :: rest)

/-- Python slice `l[-2:]` on a list of pieces: the last two (or all, if fewer). -/
def lastTwo (l : List (List Char)) : List (List Char) := l.drop (l.length - 2)

/-- Loop body of `_split_by_sentences` (chunking.py lines 187-208): greedy
accumulation of sentences, seeding the next buffer with the last two
`". "`-delimited segments of the closed chunk. -/
def sentAux (cs : Nat) (chunks : List (List Char)) (cur : List Char) :
    List (List Char) → List (List Char)
  | [] => if cur = [] then chunks else chunks ++ [pyStrip cur]
  | s :: ss =>
    if pyStrip s = [] then sentAux cs chunks cur ss
    else if cur ≠ [] ∧ cs < cur.length + s.length then
      sentAux cs (chunks ++ [pyStrip cur])
        (List.intercalate ['.', ' '] (lastTwo (splitDotSpace [] cur)) ++ [' '] ++ s) ss
    else if cur = [] then sentAux cs chunks s ss
    else sentAux cs chunks (cur ++ [' '] ++ s) ss

/-- `_split_by_sentences` (chunking.py lines 174-210). -/
def splitBySentences (cs : Nat) (text : List Char) : List (List Char) :=
  sentAux cs [] [] (splitSentences text)

/-- The oversize guard of `chunk_text` (chunking.py lines 90-96): a chunk whose
length exceeds `chunk_size * 1.5` (encoded exactly as `3 * cs < 2 * len`) is
re-split by sentences, otherwise kept as is. -/
def oversplit (cs : Nat) (c : List Char) : List (List Char) :=
  if 3 * cs < 2 * c.length then splitBySentences cs c else [c]

/-- `final_chunks` of `chunk_text` before the `max_chunks` cap (chunking.py
lines 77-96): the blank-input guard, cleaning, the paragraph pass, and the
oversize guard. -/
def preCapTexts (cs ov : Nat) (t : List Char) : List (List Char) :=
  if t = [] ∨ pyStrip t = [] then []
  else (semanticChunk cs ov (cleanText t)).flatMap (oversplit cs)

/-- `final_chunks` of `chunk_text` after the `max_chunks` cap (chunking.py
lines 98-101): truncation to the first `mx` chunks. -/
def finalChunkTexts (cs ov mx : Nat) (t : List Char) : List (List Char) :=
  (preCapTexts cs ov t).take mx

/-- A `DocumentChunk` (chunking.py lines 11-26) together with the metadata
fields `chunk_index`, `total_chunks` and `doc_id` merged into its metadata
dict by `chunk_text` (lines 109-120); the caller-supplied metadata payload is
the abstract `metadata` field. -/
structure DocumentChunk (μ : Type) where
  text : List Char
  metadata : μ
  chunkIndex : Nat
  totalChunks : Nat
  docId : List Char
  chunkId : List Char
  startOffset : Nat
  endOffset : Nat
  deriving DecidableEq, Repr

/-- Decimal digit character. -/
def digitChar (n : Nat) : Char := Char.ofNat (48 + n)

/-- Decimal representation of `n`, most significant digit first (fuelled to
stay structurally recursive). -/
def natCharsAux : Nat → Nat → List Char
  | 0, _ => []
  | fuel + 1, n =>
    if n < 10 then [digitChar n]
    else natCharsAux fuel (n / 10) ++ [digitChar (n % 10)]

/-- Decimal representation of a natural number as characters, as produced by
Python string interpolation of the chunk index. -/
def natChars (n : Nat) : List Char := natCharsAux (n + 1) n

/-- The characters of the literal `"_chunk_"` used in
`chunk_id = f"{doc_id}_chunk_{idx}"` (chunking.py line 107). -/
def chunkIdInfix : List Char := ['_', 'c', 'h', 'u', 'n', 'k', '_']

/-- The object-building loop of `chunk_text` (chunking.py lines 104-122):
sequential indices, derived chunk ids, and running character offsets over the
emitted texts. -/
def buildChunks (m : μ) (docId : List Char) (total : Nat) :
    Nat → Nat → List (List Char) → List (DocumentChunk μ)
  | _, _, [] => []
  | idx, off, t :: ts =>
    ⟨t, m, idx, total, docId, docId ++ chunkIdInfix ++ natChars idx, off,
      off + t.length⟩ :: buildChunks m docId total (idx + 1) (off + t.length) ts

/-- `ChunkingService.chunk_text` (chunking.py lines 60-124) with explicit
configuration `cs = chunk_size`, `ov = chunk_overlap`, `mx = max_chunks`. -/
def chunk_text (cs ov mx : Nat) (m : μ) (docId : List Char) (t : List Char) :
    List (DocumentChunk μ) :=
  let texts := finalChunkTexts cs ov mx t
  buildChunks m docId texts.length 0 0 texts

/-- Result record of `IndexingService.index_chunks` (indexing.py lines 53-120),
restricted to the `indexed`/`failed` counters. -/
structure IndexResult where
  indexed : Nat
  failed : Nat
  deriving DecidableEq, Repr

/-- `IndexingService.index_chunks` (indexing.py lines 53-120). The outcome of
the single `collection.add` call (which the `try` block turns into all-or-
nothing bookkeeping) is modelled by the boolean `addOk`. -/
def index_chunks (chunks : List (DocumentChunk μ)) (addOk : Bool) : IndexResult :=
  if chunks.isEmpty then ⟨0, 0⟩
  else if addOk then ⟨chunks.length, 0⟩ else ⟨0, chunks.length⟩

/-- The persistence ids derived by `index_chunks` (indexing.py lines 74-77):
`chunk_id + "_" + first 16 hex chars of sha256(text)`. The SHA-256 hex digest
is an external primitive, modelled as the abstract function `hash`. -/
def persistIds (hash : List Char → List Char) (chunks : List (DocumentChunk μ)) :
    List (List Char) :=
  chunks.map fun c => c.chunkId ++ ['_'] ++ (hash c.text).take 16

/-- Closed-form description of the persistence ids of the chunks built for a
text list: id `i` is `docId ++ "_chunk_" ++ i ++ "_" ++ hash-prefix`, derived
only from the doc id, the position and the chunk text. -/
def idsFormula (hash : List Char → List Char) (docId : List Char) :
    Nat → List (List Char) → List (List Char)
  | _, [] => []
  | i, t :: ts =>
    (docId ++ chunkIdInfix ++ natChars i ++ ['_'] ++ (hash t).take 16) ::
      idsFormula hash docId (i + 1) ts

/-- A row of the tenant's vector collection as seen by
`IndexingService.search` (indexing.py lines 146-160), in the nearest-first
order the store returns: id, text, metadata and the reported distance. -/
structure CandidateRow (μ : Type) where
  id : List Char
  text : List Char
  metadata : μ
  distance : ℤ
  deriving DecidableEq

/-- A formatted stage-1 result (indexing.py lines 153-165): `similarity` is
`1 - distance`. -/
structure StageOneHit (μ : Type) where
  id : List Char
  text : List Char
  metadata : μ
  similarity : ℤ
  deriving DecidableEq

instance [Inhabited μ] : Inhabited (StageOneHit μ) := ⟨⟨[], [], default, 0⟩⟩

/-- A `SearchResult` (search.py lines 12-44). -/
structure SearchResult (μ : Type) where
  text : List Char
  score : ℤ
  metadata : μ
  chunkId : List Char
  rank : Nat
  rerankScore : Option ℤ
  deriving DecidableEq

/-- Python `x or default` on integer knobs (`top_k = top_k or
settings.default_top_k` and friends): `0`/`None` falls back to the default. -/
def pyOr (n d : Nat) : Nat := if n = 0 then d else n

/-- `IndexingService.search` (indexing.py lines 122-167) given the collection's
nearest-first row ordering: take the `k` nearest rows, attach
`similarity = 1 - distance`, and keep a row only when its similarity is truthy
(nonzero) and at least the similarity threshold. -/
def storeSearch (thr : ℤ) (rows : List (CandidateRow μ)) (k : Nat) :
    List (StageOneHit μ) :=
  ((rows.take k).map fun r => StageOneHit.mk r.id r.text r.metadata (1 - r.distance)).filter
    fun h => decide (¬h.similarity = 0 ∧ thr ≤ h.similarity)

/-- Insert one `(index, score)` pair into a list sorted by score descending,
before the first element whose score it is not below — the placement a stable
descending sort gives an element inserted in front of later-ranked ones. -/
def insertDesc (x : Nat × ℤ) : List (Nat × ℤ) → List (Nat × ℤ)
  | [] => [x]
  | y :: ys => if y.2 ≤ x.2 then x :: y :: ys else y :: insertDesc x ys

/-- `results.sort(key=lambda x: x[1], reverse=True)` (reranker.py line 56):
a stable sort by score descending (ties keep the original index order). -/
def sortDescStable (l : List (Nat × ℤ)) : List (Nat × ℤ) :=
  l.foldr insertDesc []

/-- `RerankerService.rerank` (reranker.py lines 26-59) given the cross-encoder
scores of the candidate texts: enumerate, sort by score descending (stable),
return the top `pyOr topK 5` `(original index, score)` pairs. -/
def rerankPairs (scores : List ℤ) (topK : Nat) : List (Nat × ℤ) :=
  if scores.isEmpty then []
  else (sortDescStable scores.enum).take (pyOr topK 5)

/-- `SearchService._rerank_results` (search.py lines 120-158): map each
`(index, score)` pair back to its stage-1 result, reassign dense ranks, and
attach the rerank score. -/
def rerankResults [Inhabited μ] (initial : List (StageOneHit μ)) (scores : List ℤ)
    (topK : Nat) : List (SearchResult μ) :=
  (rerankPairs scores topK).enum.map fun p =>
    let orig := initial.getD p.2.1 default
    SearchResult.mk orig.text orig.similarity orig.metadata orig.id (p.1 + 1)
      (some p.2.2)

/-- `retrieval_k` (search.py line 91), with the reranker loaded (the service is
constructed with `settings.use_reranker = True`). -/
def retrievalK (useRerank : Bool) (k : Nat) : Nat :=
  if useRerank then k * 2 else k

/-- `SearchService.search` (search.py lines 68-118), with the reranker loaded.
`rows` is the collection's nearest-first row ordering, `scores` the
cross-encoder scores the reranking provider would assign to the stage-1
candidate texts in order. -/
def search [Inhabited μ] (thr : ℤ) (rows : List (CandidateRow μ)) (scores : List ℤ)
    (useRerank : Bool) (topK : Nat) : List (SearchResult μ) :=
  let k := pyOr topK 10
  let initial := storeSearch thr rows (retrievalK useRerank k)
  if initial.isEmpty then []
  else if useRerank then rerankResults initial scores k
  else (initial.take k).enum.map fun p =>
    SearchResult.mk p.2.text p.2.similarity p.2.metadata p.2.id (p.1 + 1) none

/-- One `sources` entry of `get_context` (search.py lines 236-241). -/
structure SourceEntry (μ : Type) where
  chunkId : List Char
  score : ℤ
  rank : Nat
  metadata : μ
  deriving DecidableEq

/-- The context bundle returned by `get_context` (search.py lines 246-251). -/
structure ContextBundle (μ : Type) where
  context : List Char
  sources : List (SourceEntry μ)
  totalChars : Nat
  numSources : Nat

/-- The fixed delimiter `"\n\n---\n\n"` joining context parts
(search.py line 244). -/
def contextDelim : List Char :=
  [nlChar, nlChar, '-', '-', '-', nlChar, nlChar]

/-- The accumulation loop of `get_context` (search.py lines 227-242): returns
the included texts, the source entries, and the final running character total;
the loop breaks at the first hit whose length would push the total past
`maxChars`. -/
def assembleAux (maxChars : Nat) :
    List (SearchResult μ) → Nat → List (List Char) × List (SourceEntry μ) × Nat
  | [], total => ([], [], total)
  | r :: rs, total =>
    if maxChars < total + r.text.length then ([], [], total)
    else
      let rest := assembleAux maxChars rs (total + r.text.length)
      (r.text :: rest.1, ⟨r.chunkId, r.score, r.rank, r.metadata⟩ :: rest.2.1,
        rest.2.2)

/-- `SearchService.get_context` (search.py lines 204-251): run `search` with a
fixed internal `topK = 10`, then greedily assemble hits under the
`maxTokens * 4` character budget. -/
def get_context [Inhabited μ] (thr : ℤ) (rows : List (CandidateRow μ))
    (scores : List ℤ) (useRerank : Bool) (maxTokens : Nat) : ContextBundle μ :=
  let results := search thr rows scores useRerank 10
  let acc := assembleAux (maxTokens * 4) results 0
  ⟨List.intercalate contextDelim acc.1, acc.2.1, acc.2.2, acc.2.1.length⟩

/-! ### Helper lemmas -/

lemma buildChunks_map_text {μ : Type} (m : μ) (d : List Char) (total : Nat) :
    ∀ (idx off : Nat) (ts : List (List Char)),
      (buildChunks m d total idx off ts).map DocumentChunk.text = ts := by
  intro idx off ts
  induction ts generalizing idx off with
  | nil => rfl
  | cons t ts ih => simp only [buildChunks, List.map_cons, ih]

lemma buildChunks_length {μ : Type} (m : μ) (d : List Char) (total idx off : Nat)
    (ts : List (List Char)) :
    (buildChunks m d total idx off ts).length = ts.length := by
  have h := buildChunks_map_text m d total idx off ts
  simpa using congrArg List.length h

lemma persistIds_buildChunks (hash : List Char → List Char) {μ : Type} (m : μ)
    (d : List Char) (total : Nat) :
    ∀ (idx off : Nat) (ts : List (List Char)),
      persistIds hash (buildChunks m d total idx off ts) = idsFormula hash d idx ts := by
  intro idx off ts
  induction ts generalizing idx off with
  | nil => rfl
  | cons t ts ih =>
    have ih' := ih (idx + 1) (off + t.length)
    simp only [persistIds, List.append_assoc] at ih'
    simp only [buildChunks, persistIds, List.map_cons, idsFormula, List.append_assoc]
    exact congrArg _ ih'

lemma assembleAux_bound {μ : Type} (maxChars : Nat) :
    ∀ (rs : List (SearchResult μ)) (total : Nat), total ≤ maxChars →
      (assembleAux maxChars rs total).2.2 ≤ maxChars ∧
        (assembleAux maxChars rs total).2.2 =
          total + ((assembleAux maxChars rs total).1.map List.length).sum := by
  intro rs
  induction rs with
  | nil => intro total h; exact ⟨h, by simp [assembleAux]⟩
  | cons r rs ih =>
    intro total h
    by_cases hc : maxChars < total + r.text.length
    · simp only [assembleAux, if_pos hc]
      exact ⟨h, by simp⟩
    · have h2 : total + r.text.length ≤ maxChars := Nat.not_lt.mp hc
      obtain ⟨b1, b2⟩ := ih (total + r.text.length) h2
      simp only [assembleAux, if_neg hc]
      refine ⟨b1, ?_⟩
      rw [b2]
      simp [Nat.add_assoc]

/-! ### Claim theorems -/

/-- C9: for every input text that is empty or contains only whitespace,
`chunk_text` returns an empty sequence (the guard at chunking.py line 77);
the embedding is a total function, so no error is possible. -/
theorem chunk_text_blank_input {μ : Type} (cs ov mx : Nat) (m : μ) (d t : List Char)
    (h : t = [] ∨ pyStrip t = []) : chunk_text cs ov mx m d t = [] := by
  simp only [chunk_text, finalChunkTexts, preCapTexts]
  rw [if_pos h]
  simp [buildChunks]

/-- Witness for C9 at the two-space input. -/
theorem chunk_text_blank_input_witness :
    (([' ', ' '] : List Char) = [] ∨ pyStrip [' ', ' '] = []) ∧
      chunk_text 512 50 500 () ['d'] [' ', ' '] = [] :=
  ⟨Or.inr (by decide),
    chunk_text_blank_input 512 50 500 () ['d'] [' ', ' '] (Or.inr (by decide))⟩

/-- C8: for every document the number of chunks returned by `chunk_text` is at
most `max_chunks`, and the output texts are exactly the first `mx` of the
uncapped chunk sequence (trailing chunks are discarded); the embedding is a
total function, so the cap never raises. -/
theorem chunk_text_count_cap {μ : Type} (cs ov mx : Nat) (m : μ) (d t : List Char) :
    (chunk_text cs ov mx m d t).length ≤ mx ∧
      (chunk_text cs ov mx m d t).map DocumentChunk.text =
        (preCapTexts cs ov t).take mx := by
  constructor
  · show (buildChunks m d _ 0 0 (finalChunkTexts cs ov mx t)).length ≤ mx
    rw [buildChunks_length, finalChunkTexts, List.length_take]
    exact Nat.min_le_left _ _
  · show (buildChunks m d _ 0 0 (finalChunkTexts cs ov mx t)).map DocumentChunk.text = _
    rw [buildChunks_map_text]
    rfl

/-- C6: for a non-empty chunk batch, a failed store add reports the whole batch
failed (`indexed = 0`, `failed = len(chunks)`), and a successful add reports
the whole batch indexed (`indexed = len(chunks)`, `failed = 0`). -/
theorem index_chunks_batch_outcome {μ : Type} (chunks : List (DocumentChunk μ))
    (h : chunks ≠ []) :
    index_chunks chunks false = ⟨0, chunks.length⟩ ∧
      index_chunks chunks true = ⟨chunks.length, 0⟩ := by
  have h' : chunks.isEmpty = false := by
    cases chunks with
    | nil => exact absurd rfl h
    | cons c cs => rfl
  constructor <;> simp [index_chunks, h']

/-- Witness for C6 at a concrete one-chunk batch. -/
theorem index_chunks_batch_outcome_witness :
    (([⟨['a'], (), 0, 1, ['d'], ['d'], 0, 1⟩] : List (DocumentChunk Unit)) ≠ []) ∧
      index_chunks ([⟨['a'], (), 0, 1, ['d'], ['d'], 0, 1⟩] : List (DocumentChunk Unit)) false
          = ⟨0, 1⟩ ∧
        index_chunks ([⟨['a'], (), 0, 1, ['d'], ['d'], 0, 1⟩] : List (DocumentChunk Unit)) true
          = ⟨1, 0⟩ :=
  ⟨by decide, index_chunks_batch_outcome _ (by decide)⟩

/-- C7: chunking is a pure function of `(text, docId)` and the persistence id of
chunk `i` is `docId ++ "_chunk_" ++ i ++ "_" ++ (hash of the chunk text).take 16`,
so indexing the same text and metadata twice under the same doc id derives
identical id lists; the ids do not even depend on the metadata payload. -/
theorem reindex_unchanged_ids (hash : List Char → List Char) {μ : Type}
    (cs ov mx : Nat) (m m2 : μ) (d t : List Char) :
    persistIds hash (chunk_text cs ov mx m d t) =
        persistIds hash (chunk_text cs ov mx m d t) ∧
      persistIds hash (chunk_text cs ov mx m d t) =
        idsFormula hash d 0 (finalChunkTexts cs ov mx t) ∧
      persistIds hash (chunk_text cs ov mx m d t) =
        persistIds hash (chunk_text cs ov mx m2 d t) := by
  refine ⟨rfl, persistIds_buildChunks hash m d _ 0 0 _, ?_⟩
  rw [chunk_text, chunk_text, persistIds_buildChunks, persistIds_buildChunks]

/-- C4: stage 1 of `search` requests `topK * 2` nearest rows when reranking and
`topK` when not, where `topK` is the resolved top-k; spelled both on
`retrievalK` itself and on the stage-1 candidate list `search` computes. -/
theorem search_stage1_request {μ : Type} [Inhabited μ] (thr : ℤ)
    (rows : List (CandidateRow μ)) (scores : List ℤ) (topK : Nat) :
    retrievalK true (pyOr topK 10) = 2 * pyOr topK 10 ∧
      retrievalK false (pyOr topK 10) = pyOr topK 10 ∧
      ∀ u : Bool, search thr rows scores u topK =
        (fun initial : List (StageOneHit μ) =>
          if initial.isEmpty then []
          else if u then rerankResults initial scores (pyOr topK 10)
          else (initial.take (pyOr topK 10)).enum.map fun p =>
            SearchResult.mk p.2.text p.2.similarity p.2.metadata p.2.id (p.1 + 1) none)
        (storeSearch thr rows (if u then 2 * pyOr topK 10 else pyOr topK 10)) := by
  refine ⟨Nat.mul_comm _ 2, rfl, ?_⟩
  intro u
  cases u with
  | false => rfl
  | true => simp only [search, retrievalK, if_pos, Nat.mul_comm]

/-- C5: `get_context` never reports `totalChars` above the `maxTokens * 4`
character budget, and `totalChars` is exactly the summed length of the
included hit texts (the delimiter characters are not counted). -/
theorem get_context_char_budget {μ : Type} [Inhabited μ] (thr : ℤ)
    (rows : List (CandidateRow μ)) (scores : List ℤ) (useRerank : Bool)
    (maxTokens : Nat) :
    (get_context thr rows scores useRerank maxTokens).totalChars ≤ maxTokens * 4 ∧
      (get_context thr rows scores useRerank maxTokens).totalChars =
        ((assembleAux (maxTokens * 4) (search thr rows scores useRerank 10) 0).1.map
          List.length).sum := by
  obtain ⟨b1, b2⟩ :=
    assembleAux_bound (maxTokens * 4) (search thr rows scores useRerank 10) 0
      (Nat.zero_le _)
  constructor
  · exact b1
  · show (assembleAux (maxTokens * 4) (search thr rows scores useRerank 10) 0).2.2 = _
    simpa using b2

/-- C1 (amended): every chunk of the final output either satisfies the
1.5 × chunkSize bound or is verbatim one of the chunks the sentence-splitting
pass produced from an oversize paragraph chunk — the sentence pass itself does
not re-establish the bound. -/
theorem chunk_bound_or_sentence_split {μ : Type} (cs ov mx : Nat) (m : μ)
    (d t : List Char) (c : DocumentChunk μ) (hc : c ∈ chunk_text cs ov mx m d t) :
    2 * c.text.length ≤ 3 * cs ∨
      ∃ p ∈ semanticChunk cs ov (cleanText t),
        3 * cs < 2 * p.length ∧ c.text ∈ splitBySentences cs p := by
  have htext : c.text ∈ finalChunkTexts cs ov mx t := by
    have hmap := List.mem_map_of_mem DocumentChunk.text hc
    rw [chunk_text] at hmap
    rwa [buildChunks_map_text] at hmap
  have hpre : c.text ∈ preCapTexts cs ov t := List.take_subset mx _ htext
  rw [preCapTexts] at hpre
  by_cases hguard : t = [] ∨ pyStrip t = []
  · rw [if_pos hguard] at hpre
    exact absurd hpre (List.not_mem_nil _)
  · rw [if_neg hguard] at hpre
    obtain ⟨p, hp, hmem⟩ := List.mem_flatMap.mp hpre
    rw [oversplit] at hmem
    by_cases hbig : 3 * cs < 2 * p.length
    · rw [if_pos hbig] at hmem
      exact Or.inr ⟨p, hp, hbig, hmem⟩
    · rw [if_neg hbig] at hmem
      rcases List.mem_singleton.mp hmem with rfl
      exact Or.inl (Nat.not_lt.mp hbig)

/-- Witness for C1 (amended) at a two-character document. -/
theorem chunk_bound_or_sentence_split_witness :
    2 * (DocumentChunk.mk ['h', 'i'] () 0 1 []
          ['_', 'c', 'h', 'u', 'n', 'k', '_', '0'] 0 2).text.length ≤ 3 * 512 ∨
      ∃ p ∈ semanticChunk 512 50 (cleanText ['h', 'i']),
        3 * 512 < 2 * p.length ∧
          (DocumentChunk.mk ['h', 'i'] () 0 1 []
            ['_', 'c', 'h', 'u', 'n', 'k', '_', '0'] 0 2).text ∈
              splitBySentences 512 p :=
  chunk_bound_or_sentence_split 512 50 500 () [] ['h', 'i'] _ (by decide)

/-- C1 is false as claimed: with `chunkSize = 8` a 20-character document
containing no sentence delimiters is returned as a single chunk of length 20,
which exceeds `1.5 × 8 = 12` — the oversize guard's sentence re-split cannot
break a delimiter-free text. -/
theorem chunk_bound_cex :
    ¬ ∀ c ∈ chunk_text 8 4 500 () ['d'] (List.replicate 20 'a'),
        2 * c.text.length ≤ 3 * 8 := by decide

lemma dropWhile_dropWhile (p : Char → Bool) (l : List Char) :
    List.dropWhile p (List.dropWhile p l) = List.dropWhile p l := by
  induction l with
  | nil => rfl
  | cons c cs ih =>
    by_cases h : p c
    · simp [List.dropWhile_cons, h, ih]
    · simp [List.dropWhile_cons, h]

lemma dropWhile_of_prefix (p : Char → Bool) {x l : List Char} (hpre : x <+: l)
    (hl : List.dropWhile p l = l) : List.dropWhile p x = x := by
  cases x with
  | nil => rfl
  | cons a xs =>
    obtain ⟨rest, hrest⟩ := hpre
    rw [← hrest, List.cons_append, List.dropWhile_cons] at hl
    by_cases h : p a
    · rw [if_pos h] at hl
      have hlen := congrArg List.length hl
      have hle := (List.dropWhile_suffix p (l := xs ++ rest)).sublist.length_le
      simp only [List.length_cons] at hlen
      omega
    · rw [List.dropWhile_cons, if_neg h]

lemma pyStrip_stripped (l : List Char) :
    List.dropWhile isPyWs (pyStrip l) = pyStrip l ∧
      List.dropWhile isPyWs (pyStrip l).reverse = (pyStrip l).reverse := by
  constructor
  · have hsuf : (pyStrip l).reverse <:+ (List.dropWhile isPyWs l).reverse := by
      rw [pyStrip, List.reverse_reverse]
      exact List.dropWhile_suffix _
    have hpre : pyStrip l <+: List.dropWhile isPyWs l := List.reverse_suffix.mp hsuf
    exact dropWhile_of_prefix isPyWs hpre (dropWhile_dropWhile isPyWs l)
  · rw [pyStrip, List.reverse_reverse]
    exact dropWhile_dropWhile _ _

lemma pyStrip_idem (l : List Char) : pyStrip (pyStrip l) = pyStrip l := by
  obtain ⟨h1, h2⟩ := pyStrip_stripped l
  show (((pyStrip l).dropWhile isPyWs).reverse.dropWhile isPyWs).reverse = pyStrip l
  rw [h1, h2, List.reverse_reverse]

lemma cleanText_stripped (t : List Char) : pyStrip (cleanText t) = cleanText t := by
  rw [cleanText]
  exact pyStrip_idem _

lemma mem_collapseWsAux {c : Char} :
    ∀ (b : Bool) (l : List Char), c ∈ collapseWsAux b l →
      isPyWs c = false ∨ c = ' ' := by
  intro b l
  induction l generalizing b with
  | nil => intro h; exact absurd h (List.not_mem_nil c)
  | cons a as ih =>
    intro h
    simp only [collapseWsAux] at h
    by_cases ha : isPyWs a
    · rw [if_pos ha] at h
      cases b with
      | true => exact ih true (by simpa using h)
      | false =>
        rcases List.mem_cons.mp (by simpa using h) with hsp | h2
        · exact Or.inr hsp
        · exact ih true h2
    · rw [if_neg ha] at h
      rcases List.mem_cons.mp h with rfl | h2
      · exact Or.inl (by simpa using ha)
      · exact ih false h2

lemma nl_not_mem_cleanText (t : List Char) : nlChar ∉ cleanText t := by
  intro h
  have h1 : nlChar ∈ (collapseWs t).filter (fun c => !(isCtrl c)) := by
    rw [cleanText, pyStrip] at h
    have h2 := List.mem_reverse.mp h
    have h3 := (List.dropWhile_suffix isPyWs).subset h2
    have h4 := List.mem_reverse.mp h3
    exact (List.dropWhile_suffix isPyWs).subset h4
  have h5 : nlChar ∈ collapseWs t := List.filter_subset' _ h1
  rcases mem_collapseWsAux false t h5 with hf | hsp
  · exact absurd hf (by decide)
  · exact absurd hsp (by decide)

lemma splitParasAux_no_nl :
    ∀ (l cur : List Char), nlChar ∉ l →
      splitParasAux cur 0 l = [cur.reverse ++ l] := by
  intro l
  induction l with
  | nil => intro cur _; simp [splitParasAux]
  | cons c cs ih =>
    intro cur h
    have hc : ¬(c = nlChar) := fun hx => h (hx ▸ List.mem_cons_self c cs)
    have hcs : nlChar ∉ cs := fun hx => h (List.mem_cons_of_mem c hx)
    simp only [splitParasAux]
    rw [if_neg hc]
    norm_num
    rw [ih (c :: cur) hcs]
    simp

lemma splitParagraphs_no_nl (l : List Char) (h : nlChar ∉ l) :
    splitParagraphs l = [l] := by
  rw [splitParagraphs, splitParasAux_no_nl l [] h]
  simp

lemma semanticChunk_cleanText_single (cs ov : Nat) (t : List Char)
    (h : cleanText t ≠ []) :
    semanticChunk cs ov (cleanText t) = [cleanText t] := by
  have hsplit : splitParagraphs (cleanText t) = [cleanText t] :=
    splitParagraphs_no_nl _ (nl_not_mem_cleanText t)
  have hps := cleanText_stripped t
  rw [semanticChunk, hsplit]
  simp [semAux, hps, h]

/-- C10 (amended): for every input whose *cleaned* text is non-empty, the
paragraph-level pass returns exactly one element — the entire cleaned text —
because whitespace collapsing has removed every blank-line boundary; hence all
actual splitting is done by the sentence pass, and only when the cleaned text
exceeds 1.5 × chunkSize. -/
theorem paragraph_pass_single (cs ov : Nat) (t : List Char)
    (h : cleanText t ≠ []) :
    semanticChunk cs ov (cleanText t) = [cleanText t] ∧
      (semanticChunk cs ov (cleanText t)).flatMap (oversplit cs) =
        if 3 * cs < 2 * (cleanText t).length then
          splitBySentences cs (cleanText t)
        else [cleanText t] := by
  have ha := semanticChunk_cleanText_single cs ov t h
  refine ⟨ha, ?_⟩
  rw [ha]
  simp [oversplit]

/-- Witness for C10 (amended) at a two-character document. -/
theorem paragraph_pass_single_witness :
    cleanText ['h', 'i'] ≠ [] ∧
      (semanticChunk 512 50 (cleanText ['h', 'i']) = [cleanText ['h', 'i']] ∧
        (semanticChunk 512 50 (cleanText ['h', 'i'])).flatMap (oversplit 512) =
          if 3 * 512 < 2 * (cleanText ['h', 'i']).length then
            splitBySentences 512 (cleanText ['h', 'i'])
          else [cleanText ['h', 'i']]) :=
  ⟨by decide, paragraph_pass_single 512 50 ['h', 'i'] (by decide)⟩

/-- C10 is false as claimed over every non-empty input: the one-character
document `"\x01"` is non-empty and passes the blank-input guard (a control
character is not whitespace), but `_clean_text` erases it, and the
paragraph-level pass returns no element at all instead of exactly one. -/
theorem paragraph_pass_single_cex :
    ([Char.ofNat 1] : List Char) ≠ [] ∧ pyStrip [Char.ofNat 1] ≠ [] ∧
      semanticChunk 512 50 (cleanText [Char.ofNat 1]) = [] := by decide

/-- The order a stable descending sort of enumerated scores produces: scores
strictly descending, with equal scores tie-broken by ascending original
(stage-1) index. -/
def rankRel (a b : Nat × ℤ) : Prop := b.2 < a.2 ∨ (a.2 = b.2 ∧ a.1 < b.1)

instance (a b : Nat × ℤ) : Decidable (rankRel a b) :=
  inferInstanceAs (Decidable (_ ∨ _))

lemma rankRel_le {a b : Nat × ℤ} (h : rankRel a b) : b.2 ≤ a.2 := by
  rcases h with h | ⟨h, _⟩
  · exact le_of_lt h
  · exact le_of_eq h.symm

lemma mem_insertDesc {z x : Nat × ℤ} :
    ∀ {l : List (Nat × ℤ)}, z ∈ insertDesc x l → z = x ∨ z ∈ l := by
  intro l
  induction l with
  | nil => intro h; simpa [insertDesc] using h
  | cons y ys ih =>
    intro h
    rw [insertDesc] at h
    by_cases hc : y.2 ≤ x.2
    · rw [if_pos hc] at h
      rcases List.mem_cons.mp h with rfl | h2
      · exact Or.inl rfl
      · exact Or.inr h2
    · rw [if_neg hc] at h
      rcases List.mem_cons.mp h with rfl | h2
      · exact Or.inr (List.mem_cons_self _ _)
      · rcases ih h2 with h3 | h3
        · exact Or.inl h3
        · exact Or.inr (List.mem_cons_of_mem _ h3)

lemma insertDesc_pairwise {x : Nat × ℤ} :
    ∀ {l : List (Nat × ℤ)}, l.Pairwise rankRel → (∀ y ∈ l, x.1 < y.1) →
      (insertDesc x l).Pairwise rankRel := by
  intro l
  induction l with
  | nil => intro _ _; simp [insertDesc]
  | cons y ys ih =>
    intro hp hidx
    rw [List.pairwise_cons] at hp
    obtain ⟨hy, hys⟩ := hp
    rw [insertDesc]
    by_cases hc : y.2 ≤ x.2
    · rw [if_pos hc]
      refine List.Pairwise.cons ?_ (List.Pairwise.cons hy hys)
      intro z hz
      have hz2 : z.2 ≤ x.2 := by
        rcases List.mem_cons.mp hz with rfl | h2
        · exact hc
        · exact le_trans (rankRel_le (hy z h2)) hc
      rcases lt_or_eq_of_le hz2 with h | h
      · exact Or.inl h
      · exact Or.inr ⟨h.symm, hidx z hz⟩
    · rw [if_neg hc]
      refine List.Pairwise.cons ?_
        (ih hys fun z hz => hidx z (List.mem_cons_of_mem y hz))
      intro z hz
      rcases mem_insertDesc hz with rfl | h2
      · exact Or.inl (lt_of_not_le hc)
      · exact hy z h2

lemma mem_sortDescStable {z : Nat × ℤ} :
    ∀ {l : List (Nat × ℤ)}, z ∈ sortDescStable l → z ∈ l := by
  intro l
  induction l with
  | nil => intro h; exact absurd h (List.not_mem_nil z)
  | cons x xs ih =>
    intro h
    rcases mem_insertDesc (show z ∈ insertDesc x (sortDescStable xs) from h) with
      rfl | h2
    · exact List.mem_cons_self _ _
    · exact List.mem_cons_of_mem _ (ih h2)

lemma sortDescStable_pairwise :
    ∀ {l : List (Nat × ℤ)}, l.Pairwise (fun a b => a.1 < b.1) →
      (sortDescStable l).Pairwise rankRel := by
  intro l
  induction l with
  | nil => intro _; exact List.Pairwise.nil
  | cons x xs ih =>
    intro hp
    rw [List.pairwise_cons] at hp
    obtain ⟨hx, hxs⟩ := hp
    show (insertDesc x (sortDescStable xs)).Pairwise rankRel
    exact insertDesc_pairwise (ih hxs) fun y hy => hx y (mem_sortDescStable hy)

lemma enumFrom_fst_le {α : Type} {z : Nat × α} :
    ∀ {m : Nat} {l : List α}, z ∈ List.enumFrom m l → m ≤ z.1 := by
  intro m l
  induction l generalizing m with
  | nil => intro h; exact absurd h (List.not_mem_nil z)
  | cons x xs ih =>
    intro h
    rcases List.mem_cons.mp h with rfl | h2
    · exact le_refl _
    · exact le_trans (Nat.le_succ m) (ih h2)

lemma enumFrom_pairwise_idx {α : Type} :
    ∀ (n : Nat) (l : List α),
      (List.enumFrom n l).Pairwise fun a b => a.1 < b.1 := by
  intro n l
  induction l generalizing n with
  | nil => exact List.Pairwise.nil
  | cons x xs ih =>
    refine List.Pairwise.cons ?_ (ih (n + 1))
    intro z hz
    exact lt_of_lt_of_le (Nat.lt_succ_self n) (enumFrom_fst_le hz)

lemma pairwise_enumFrom_snd {α : Type} {S : α → α → Prop} {l : List α}
    (h : l.Pairwise S) (n : Nat) :
    (List.enumFrom n l).Pairwise fun p q => S p.2 q.2 := by
  have h2 : ((List.enumFrom n l).map Prod.snd).Pairwise S := by
    rw [List.enumFrom_map_snd]
    exact h
  exact List.pairwise_map.mp h2

lemma map_rank_enumFrom {μ α : Type} (g : Nat × α → SearchResult μ)
    (hg : ∀ p, (g p).rank = p.1 + 1) :
    ∀ (n : Nat) (l : List α),
      ((List.enumFrom n l).map g).map SearchResult.rank =
        List.range' (n + 1) l.length := by
  intro n l
  induction l generalizing n with
  | nil => rfl
  | cons x xs ih =>
    show ((((n, x) :: List.enumFrom (n + 1) xs)).map g).map SearchResult.rank = _
    rw [List.map_cons, List.map_cons, hg, List.length_cons, List.range'_succ,
      ih (n + 1)]

lemma storeSearch_pairwise_sim {μ : Type} (thr : ℤ) {rows : List (CandidateRow μ)}
    (hrows : rows.Pairwise fun a b => a.distance ≤ b.distance) (k : Nat) :
    (storeSearch thr rows k).Pairwise fun h h2 => h2.similarity ≤ h.similarity := by
  rw [storeSearch]
  apply List.Pairwise.sublist (List.filter_sublist _)
  rw [List.pairwise_map]
  apply List.Pairwise.imp (fun h => sub_le_sub_left h 1)
  exact hrows.sublist (List.take_sublist k rows)

lemma pyOr_ne_zero (n : Nat) : pyOr n 10 ≠ 0 := by
  rw [pyOr]
  by_cases h : n = 0
  · rw [if_pos h]; exact Nat.succ_ne_zero 9
  · rw [if_neg h]; exact h

lemma search_false_eq {μ : Type} [Inhabited μ] (thr : ℤ)
    (rows : List (CandidateRow μ)) (scores : List ℤ) (topK : Nat) :
    search thr rows scores false topK =
      ((storeSearch thr rows (retrievalK false (pyOr topK 10))).take
          (pyOr topK 10)).enum.map fun p =>
        SearchResult.mk p.2.text p.2.similarity p.2.metadata p.2.id (p.1 + 1)
          none := by
  show (if (storeSearch thr rows (retrievalK false (pyOr topK 10))).isEmpty
      then ([] : List (SearchResult μ)) else _) = _
  by_cases he : (storeSearch thr rows (retrievalK false (pyOr topK 10))).isEmpty
  · rw [if_pos he, List.isEmpty_iff.mp he]
    simp
  · rw [if_neg he]
    simp

lemma search_true_eq {μ : Type} [Inhabited μ] (thr : ℤ)
    (rows : List (CandidateRow μ)) (scores : List ℤ) (topK : Nat) :
    search thr rows scores true topK =
      if (storeSearch thr rows (retrievalK true (pyOr topK 10))).isEmpty then []
      else rerankResults (storeSearch thr rows (retrievalK true (pyOr topK 10)))
        scores (pyOr topK 10) := rfl

/-- C3: the hits returned by `search` are ordered by similarity descending when
`useReranking` is false (given that the vector collection returns its rows
nearest-first, i.e. distances ascending); ordered by rerank score descending
when `useReranking` is true, where the reranked pair list is sorted strictly by
score descending with ties broken by the original stage-1 index (a stable sort
on score only) and truncated to `topK`; and in both modes the `rank` fields are
exactly the dense sequence `1..k` and at most `topK` hits are returned. -/
theorem search_ordering_and_ranks {μ : Type} [Inhabited μ] (thr : ℤ)
    (rows : List (CandidateRow μ)) (scores : List ℤ) (topK : Nat)
    (hrows : rows.Pairwise fun a b => a.distance ≤ b.distance) :
    (search thr rows scores false topK).Pairwise
        (fun a b => b.score ≤ a.score) ∧
      (rerankPairs scores (pyOr topK 10)).Pairwise rankRel ∧
      (search thr rows scores true topK).Pairwise
        (fun a b => ∀ x y, a.rerankScore = some x → b.rerankScore = some y →
          y ≤ x) ∧
      ∀ u : Bool,
        (search thr rows scores u topK).map SearchResult.rank =
            List.range' 1 (search thr rows scores u topK).length ∧
          (search thr rows scores u topK).length ≤ pyOr topK 10 := by
  have cpairs : (rerankPairs scores (pyOr topK 10)).Pairwise rankRel := by
    rw [rerankPairs]
    by_cases hs : scores.isEmpty
    · rw [if_pos hs]
      exact List.Pairwise.nil
    · rw [if_neg hs]
      exact (sortDescStable_pairwise (enumFrom_pairwise_idx 0 scores)).sublist
        (List.take_sublist _ _)
  refine ⟨?_, cpairs, ?_, ?_⟩
  · rw [search_false_eq, List.pairwise_map]
    exact pairwise_enumFrom_snd
      ((storeSearch_pairwise_sim thr hrows _).sublist (List.take_sublist _ _)) 0
  · rw [search_true_eq]
    by_cases he : (storeSearch thr rows (retrievalK true (pyOr topK 10))).isEmpty
    · rw [if_pos he]
      exact List.Pairwise.nil
    · rw [if_neg he, rerankResults, List.pairwise_map]
      have henum := pairwise_enumFrom_snd
        (cpairs.imp (fun h => rankRel_le h)) 0
      refine henum.imp ?_
      intro a b hab x y hx hy
      have hx' : a.2.2 = x := Option.some.inj hx
      have hy' : b.2.2 = y := Option.some.inj hy
      rw [← hx', ← hy']
      exact hab
  · intro u
    cases u with
    | false =>
      constructor
      · rw [search_false_eq, List.enum]
        rw [map_rank_enumFrom _ (fun p => rfl) 0]
        simp
      · rw [search_false_eq]
        simp only [List.length_map, List.enum_length, List.length_take]
        exact Nat.min_le_left _ _
    | true =>
      rw [search_true_eq]
      by_cases he : (storeSearch thr rows (retrievalK true (pyOr topK 10))).isEmpty
      · rw [if_pos he]
        exact ⟨rfl, Nat.zero_le _⟩
      · rw [if_neg he, rerankResults]
        constructor
        · rw [List.enum, map_rank_enumFrom _ (fun p => rfl) 0]
          simp
        · simp only [List.length_map, List.enum_length]
          rw [rerankPairs]
          by_cases hs : scores.isEmpty
          · rw [if_pos hs]
            exact Nat.zero_le _
          · rw [if_neg hs]
            have hk5 : pyOr (pyOr topK 10) 5 = pyOr topK 10 := by
              rw [pyOr, if_neg (pyOr_ne_zero topK)]
            rw [List.length_take, hk5]
            exact Nat.min_le_left _ _

/-- Witness for C3 at two tied rows (distance 0 each) and tied rerank scores. -/
theorem search_ordering_and_ranks_witness :
    ((search 1 ([⟨['a'], ['a'], (), 0⟩, ⟨['b'], ['b'], (), 0⟩] :
          List (CandidateRow Unit)) [5, 5] false 0).Pairwise
        (fun a b => b.score ≤ a.score) ∧
      (rerankPairs [5, 5] (pyOr 0 10)).Pairwise rankRel ∧
      (search 1 ([⟨['a'], ['a'], (), 0⟩, ⟨['b'], ['b'], (), 0⟩] :
          List (CandidateRow Unit)) [5, 5] true 0).Pairwise
        (fun a b => ∀ x y, a.rerankScore = some x → b.rerankScore = some y →
          y ≤ x) ∧
      ∀ u : Bool,
        (search 1 ([⟨['a'], ['a'], (), 0⟩, ⟨['b'], ['b'], (), 0⟩] :
              List (CandidateRow Unit)) [5, 5] u 0).map SearchResult.rank =
            List.range' 1 (search 1 ([⟨['a'], ['a'], (), 0⟩,
              ⟨['b'], ['b'], (), 0⟩] : List (CandidateRow Unit)) [5, 5] u 0).length ∧
          (search 1 ([⟨['a'], ['a'], (), 0⟩, ⟨['b'], ['b'], (), 0⟩] :
              List (CandidateRow Unit)) [5, 5] u 0).length ≤ pyOr 0 10) :=
  search_ordering_and_ranks 1 _ [5, 5] 0 (by decide)

/-! ### The `"word " * 400` scenario document of C2 -/

/-- The five characters of the repeated block `"word "`. -/
def wordBlock : List Char := ['w', 'o', 'r', 'd', ' ']

/-- The C2 scenario input: 2000 characters of repeated `"word "`. -/
def wordDoc : List Char := (List.replicate 400 wordBlock).flatten

/-- What `_clean_text` leaves of `wordDoc`: the trailing space is stripped,
1999 characters. -/
def wordDocClean : List Char :=
  (List.replicate 399 wordBlock).flatten ++ ['w', 'o', 'r', 'd']

/-- `wordDocClean` exposed with its first and last characters. -/
def wordDocCore : List Char :=
  ['o', 'r', 'd', ' '] ++ (List.replicate 398 wordBlock).flatten ++ ['w', 'o', 'r']

lemma isPyWs_w : isPyWs 'w' = false := by decide
lemma isPyWs_o : isPyWs 'o' = false := by decide
lemma isPyWs_r : isPyWs 'r' = false := by decide
lemma isPyWs_d : isPyWs 'd' = false := by decide
lemma isPyWs_sp : isPyWs ' ' = true := by decide

lemma wordBlock_not_ctrl : ∀ c ∈ wordBlock, (!(isCtrl c)) = true := by decide

lemma wordBlock_not_delim :
    ∀ c ∈ wordBlock, c ≠ '.' ∧ c ≠ '!' ∧ c ≠ '?' := by decide

lemma wordDoc_eq : wordDoc = wordDocClean ++ [' '] := by
  rw [wordDoc, wordDocClean, show (400 : Nat) = 399 + 1 from rfl,
    List.replicate_succ', List.flatten_append]
  simp only [List.flatten_cons, List.flatten_nil, List.append_nil, wordBlock,
    List.append_assoc, List.cons_append, List.nil_append]

lemma wordDocClean_shape : wordDocClean = 'w' :: wordDocCore ++ ['d'] := by
  rw [wordDocClean, wordDocCore, show (399 : Nat) = 398 + 1 from rfl,
    List.replicate_succ, List.flatten_cons, wordBlock]
  simp only [List.append_assoc, List.cons_append, List.nil_append]

lemma mem_wordBlocks {c : Char} {n : Nat}
    (h : c ∈ (List.replicate n wordBlock).flatten) : c ∈ wordBlock := by
  obtain ⟨l', hl', hc⟩ := List.mem_flatten.mp h
  rwa [List.eq_of_mem_replicate hl'] at hc

lemma mem_wordDocClean {c : Char} (h : c ∈ wordDocClean) : c ∈ wordBlock := by
  rw [wordDocClean] at h
  rcases List.mem_append.mp h with h | h
  · exact mem_wordBlocks h
  · have hsub : ∀ x ∈ (['w', 'o', 'r', 'd'] : List Char), x ∈ wordBlock := by decide
    exact hsub c h

lemma collapse_wordBlocks :
    ∀ (n : Nat) (b : Bool),
      collapseWsAux b ((List.replicate n wordBlock).flatten) =
        (List.replicate n wordBlock).flatten := by
  intro n
  induction n with
  | zero => intro b; rfl
  | succ n ih =>
    intro b
    rw [List.replicate_succ, List.flatten_cons]
    show collapseWsAux b
      ('w' :: 'o' :: 'r' :: 'd' :: ' ' :: (List.replicate n wordBlock).flatten) =
      'w' :: 'o' :: 'r' :: 'd' :: ' ' :: (List.replicate n wordBlock).flatten
    simp [collapseWsAux, isPyWs_w, isPyWs_o, isPyWs_r, isPyWs_d, isPyWs_sp,
      ih true]

lemma filter_wordDoc :
    wordDoc.filter (fun c => !(isCtrl c)) = wordDoc := by
  rw [List.filter_eq_self]
  intro a ha
  exact wordBlock_not_ctrl a (mem_wordBlocks (n := 400) ha)

lemma dropWhile_wordDocClean (rest : List Char) :
    List.dropWhile isPyWs (wordDocClean ++ rest) = wordDocClean ++ rest := by
  rw [wordDocClean_shape]
  simp only [List.cons_append, List.append_assoc]
  rw [List.dropWhile_cons, isPyWs_w]
  simp

lemma dropWhile_wordDocClean_rev :
    List.dropWhile isPyWs wordDocClean.reverse = wordDocClean.reverse := by
  rw [wordDocClean_shape, List.reverse_append, List.reverse_singleton,
    List.singleton_append, List.dropWhile_cons, isPyWs_d]
  simp

lemma pyStrip_wordDoc : pyStrip wordDoc = wordDocClean := by
  rw [wordDoc_eq, pyStrip, dropWhile_wordDocClean [' '], List.reverse_append,
    List.reverse_singleton, List.singleton_append, List.dropWhile_cons,
    isPyWs_sp]
  simp [dropWhile_wordDocClean_rev]

lemma pyStrip_wordDocClean : pyStrip wordDocClean = wordDocClean := by
  have h := dropWhile_wordDocClean []
  rw [List.append_nil] at h
  rw [pyStrip, h, dropWhile_wordDocClean_rev, List.reverse_reverse]

lemma cleanText_wordDoc : cleanText wordDoc = wordDocClean := by
  have hc : collapseWs wordDoc = wordDoc := collapse_wordBlocks 400 false
  rw [cleanText, hc, filter_wordDoc, pyStrip_wordDoc]

lemma wordDocClean_ne : wordDocClean ≠ [] := by
  rw [wordDocClean_shape]
  simp

lemma wordDocClean_length : wordDocClean.length = 1999 := by
  rw [wordDocClean, List.length_append, List.length_flatten, List.map_replicate]
  rw [show wordBlock.length = 5 from rfl, List.sum_replicate, smul_eq_mul]
  norm_num

lemma splitSentAux_no_delim :
    ∀ (l cur : List Char), (∀ c ∈ l, c ≠ '.' ∧ c ≠ '!' ∧ c ≠ '?') →
      splitSentAux cur false false l = [cur.reverse ++ l] := by
  intro l
  induction l with
  | nil => intro cur _; simp [splitSentAux]
  | cons c cs ih =>
    intro cur h
    obtain ⟨h1, h2, h3⟩ := h c (List.mem_cons_self c cs)
    have hcs : ∀ x ∈ cs, x ≠ '.' ∧ x ≠ '!' ∧ x ≠ '?' :=
      fun x hx => h x (List.mem_cons_of_mem c hx)
    simp only [splitSentAux]
    by_cases hws : isPyWs c
    · rw [if_pos hws]
      simp only [Bool.false_eq_true, if_false]
      rw [ih (c :: cur) hcs]
      simp
    · rw [if_neg hws]
      have hd : (decide (c = '.' ∨ c = '!' ∨ c = '?')) = false := by
        simp [h1, h2, h3]
      rw [hd, ih (c :: cur) hcs]
      simp

lemma no_delim_wordDocClean :
    ∀ c ∈ wordDocClean, c ≠ '.' ∧ c ≠ '!' ∧ c ≠ '?' :=
  fun c hc => wordBlock_not_delim c (mem_wordDocClean hc)

lemma splitBySentences_wordDocClean :
    splitBySentences 512 wordDocClean = [wordDocClean] := by
  rw [splitBySentences, splitSentences,
    splitSentAux_no_delim wordDocClean [] no_delim_wordDocClean]
  rw [show (([] : List Char).reverse ++ wordDocClean) = wordDocClean from by simp]
  simp [sentAux, pyStrip_wordDocClean, wordDocClean_ne]

lemma finalChunkTexts_wordDoc :
    finalChunkTexts 512 50 500 wordDoc = [wordDocClean] := by
  have hguard : ¬(wordDoc = [] ∨ pyStrip wordDoc = []) := by
    rw [pyStrip_wordDoc, wordDoc_eq, wordDocClean_shape]
    rintro (h | h) <;> simp at h
  have hclean : cleanText wordDoc ≠ [] := by
    rw [cleanText_wordDoc]
    exact wordDocClean_ne
  have hsem := semanticChunk_cleanText_single 512 50 wordDoc hclean
  rw [finalChunkTexts, preCapTexts, if_neg hguard, hsem, cleanText_wordDoc]
  have hbig : 3 * 512 < 2 * wordDocClean.length := by
    rw [wordDocClean_length]
    norm_num
  simp only [List.flatMap_cons, List.flatMap_nil, List.append_nil, oversplit,
    if_pos hbig, splitBySentences_wordDocClean]
  rfl

/-- C2 (amended): chunking 2000 characters of repeated `"word "` with
`chunkSize = 512`, `chunkOverlap = 50` yields exactly **one** chunk of length
1999 (the cleaned text; the trailing space is stripped) — not 4 chunks of at
most 768 characters: after whitespace collapsing there is a single paragraph
and, the text containing no sentence delimiters, the oversize re-split returns
it whole, so no splitting and no overlap seeding ever happens. -/
theorem word_doc_single_chunk {μ : Type} (m : μ) (d : List Char) :
    (chunk_text 512 50 500 m d wordDoc).map (fun c => c.text.length) = [1999] := by
  rw [chunk_text]
  rw [finalChunkTexts_wordDoc]
  rw [show (buildChunks m d [wordDocClean].length 0 0 [wordDocClean]).map
        (fun c => c.text.length) =
      ([wordDocClean].map (fun t => t.length)) from by
    rw [← buildChunks_map_text m d [wordDocClean].length 0 0 [wordDocClean],
      List.map_map]
    rfl]
  rw [List.map_cons, wordDocClean_length]
  rfl

/-- C2 is false as claimed: the same call yields 1 chunk, not 4 — the text has
no sentence delimiters, so the greedy sentence re-split cannot break it. -/
theorem word_doc_example_cex :
    ¬((chunk_text 512 50 500 () [] wordDoc).length = 4) := by
  rw [chunk_text, finalChunkTexts_wordDoc, buildChunks_length]
  decide

end Oracle
